import Mathlib

/-!
Verification of the comment triage-and-dispatch pipeline
(`src/queue_manager.py`, `src/judge.py`, `src/main.py`).

The queue is a shallow embedding of `QueueManager`, including a faithful
model of CPython `heapq` (`heappush` / `heappop` / `heapify` with the
`_siftdown` / `_siftup` loops) over a `List QueueItem`, because the
eviction scan `max(self._items, key=...)` observes the physical heap
array order.  Times are modelled as naturals (`inserted_at` is only used
for ordering comparisons in the source).
-/

namespace OCAK

/-- Model of `QueueItem` (`queue_manager.py`): `priority`, `inserted_at`
and a comparison-irrelevant payload identifier standing for
`comment_id` / `comment_data`. -/
structure QueueItem where
  priority : Nat
  inserted_at : Nat
  comment_id : Nat
  deriving DecidableEq, Repr

/-- Default value used for out-of-range list reads (never observed on
in-range indices). -/
def dItem : QueueItem := ⟨0, 0, 0⟩

/-- Python `<` on the heap tuples `(priority, inserted_at, item)`:
lexicographic on `(priority, inserted_at)` (the dataclass compares the
same two fields again, so the third component never decides). -/
def itemLt (x y : QueueItem) : Prop :=
  x.priority < y.priority ∨ (x.priority = y.priority ∧ x.inserted_at < y.inserted_at)

instance (x y : QueueItem) : Decidable (itemLt x y) := by
  unfold itemLt; exact inferInstance

/-- Python `==` on the heap tuples: equality of the two compared fields. -/
def itemEq (x y : QueueItem) : Prop :=
  x.priority = y.priority ∧ x.inserted_at = y.inserted_at

instance (x y : QueueItem) : Decidable (itemEq x y) := by
  unfold itemEq; exact inferInstance

theorem itemLt_irrefl (x : QueueItem) : ¬ itemLt x x := by
  unfold itemLt; omega

theorem itemLt_asymm {x y : QueueItem} (h : itemLt x y) : ¬ itemLt y x := by
  unfold itemLt at *; omega

theorem itemLt_trans {x y z : QueueItem} (h1 : itemLt x y) (h2 : itemLt y z) :
    itemLt x z := by
  unfold itemLt at *; omega

theorem not_itemLt_trans {x y z : QueueItem} (h1 : ¬ itemLt x y) (h2 : ¬ itemLt y z) :
    ¬ itemLt x z := by
  unfold itemLt at *; omega

theorem not_itemLt_of_itemLt_not_itemLt {x y z : QueueItem}
    (h1 : ¬ itemLt x y) (h2 : itemLt z y) : ¬ itemLt x z := by
  unfold itemLt at *; omega

/-- Indexed read with default, abbreviating `List.getD`. -/
def geta (l : List QueueItem) (i : Nat) : QueueItem := l.getD i dItem

theorem geta_set_self {l : List QueueItem} {i : Nat} (x : QueueItem)
    (h : i < l.length) : geta (l.set i x) i = x := by
  simp [geta, List.getD_eq_getElem?_getD, List.getElem?_set_self, h]

theorem geta_set_ne {l : List QueueItem} {i j : Nat} (x : QueueItem)
    (h : i ≠ j) : geta (l.set i x) j = geta l j := by
  simp [geta, List.getD_eq_getElem?_getD, List.getElem?_set_ne h]

theorem geta_append_left {l : List QueueItem} {i : Nat} (x : QueueItem)
    (h : i < l.length) : geta (l ++ [x]) i = geta l i := by
  simp [geta, List.getD_eq_getElem?_getD, List.getElem?_append_left h]

theorem geta_append_last (l : List QueueItem) (x : QueueItem) :
    geta (l ++ [x]) l.length = x := by
  simp [geta, List.getD_eq_getElem?_getD]

theorem geta_dropLast {l : List QueueItem} {i : Nat} (h : i + 1 < l.length) :
    geta l.dropLast i = geta l i := by
  have h2 : i < l.length - 1 := by omega
  have h3 : i < l.length := by omega
  simp [geta, List.getD_eq_getElem?_getD, List.getElem?_dropLast, h2,
    List.getElem?_eq_getElem h3]

theorem geta_eq_getElem {l : List QueueItem} {i : Nat} (h : i < l.length) :
    geta l i = l[i] := by
  simp [geta, List.getD_eq_getElem?_getD, List.getElem?_eq_getElem h]

theorem mem_of_geta {l : List QueueItem} {i : Nat} (h : i < l.length) :
    geta l i ∈ l := by
  rw [geta_eq_getElem h]; exact List.getElem_mem h

theorem exists_geta_of_mem {l : List QueueItem} {x : QueueItem} (h : x ∈ l) :
    ∃ i, i < l.length ∧ geta l i = x := by
  obtain ⟨i, hi, hx⟩ := List.mem_iff_getElem.mp h
  exact ⟨i, hi, by rw [geta_eq_getElem hi]; exact hx⟩

/-- Replacing the element at an in-range index, as a permutation fact:
the displaced element plus the new list is a rearrangement of the new
element plus the old list. -/
theorem perm_set {l : List QueueItem} {i : Nat} (x : QueueItem)
    (h : i < l.length) : (geta l i :: l.set i x).Perm (x :: l) := by
  induction l generalizing i with
  | nil => simp at h
  | cons a t ih =>
    cases i with
    | zero =>
      simp only [geta, List.getD_cons_zero, List.set_cons_zero]
      exact List.Perm.swap x a t
    | succ n =>
      have hn : n < t.length := by simpa using h
      simp only [geta, List.getD_cons_succ, List.set_cons_succ]
      exact ((List.Perm.swap a (geta t n) (t.set n x)).trans
        ((ih hn).cons a)).trans (List.Perm.swap x a t)

/-! ### CPython `heapq` model

Faithful translations of `heapq._siftdown`, `heapq._siftup`,
`heappush`, `heappop` and `heapify` acting on the physical list. -/

/-- Parent index in the implicit binary tree of the heap array
(`(pos - 1) >> 1` in `heapq`). -/
def parIdx (i : Nat) : Nat := (i - 1) / 2

/-- `heapq._siftdown(heap, startpos, pos)` with the moved item passed
explicitly: climb toward `startpos`, shifting parents down, then place
`newitem`. -/
def siftdownFrom (heap : List QueueItem) (startpos pos : Nat) (newitem : QueueItem) :
    List QueueItem :=
  if _h : startpos < pos then
    if itemLt newitem (geta heap (parIdx pos)) then
      siftdownFrom (heap.set pos (geta heap (parIdx pos))) startpos (parIdx pos) newitem
    else
      heap.set pos newitem
  else
    heap.set pos newitem
termination_by pos
decreasing_by unfold parIdx; omega

/-- The child index selected by the `_siftup` descent loop: the right
child when it exists and the left child is not smaller, else the left
child. -/
def chooseChild (heap : List QueueItem) (pos : Nat) : Nat :=
  if 2 * pos + 2 < heap.length ∧
      ¬ itemLt (geta heap (2 * pos + 1)) (geta heap (2 * pos + 2))
    then 2 * pos + 2 else 2 * pos + 1

/-- The descent loop of `heapq._siftup`: follow the chosen-child chain
from `pos`, moving each chosen child up, and return the final position. -/
def siftupLoop (heap : List QueueItem) (pos : Nat) : List QueueItem × Nat :=
  if _h : 2 * pos + 1 < heap.length then
    siftupLoop (heap.set pos (geta heap (chooseChild heap pos))) (chooseChild heap pos)
  else
    (heap, pos)
termination_by heap.length - pos
decreasing_by
  simp only [List.length_set]
  unfold chooseChild
  split <;> omega

/-- `heapq._siftup(heap, pos)`: bubble the chosen-child chain up to a
leaf, then sift the saved item back down toward `pos`. -/
def siftup (heap : List QueueItem) (pos : Nat) : List QueueItem :=
  siftdownFrom (siftupLoop heap pos).1 pos (siftupLoop heap pos).2 (geta heap pos)

/-- `heapq.heappush`. -/
def heappush (heap : List QueueItem) (item : QueueItem) : List QueueItem :=
  siftdownFrom (heap ++ [item]) 0 heap.length item

/-- `heapq.heappop`: `None` models the `IndexError` on an empty heap
(the caller guards against it). -/
def heappop (heap : List QueueItem) : Option (QueueItem × List QueueItem) :=
  match heap with
  | [] => none
  | [x] => some (x, [])
  | x :: y :: t =>
    let a := x :: y :: t
    let last := geta a (a.length - 1)
    let rest := a.dropLast
    some (x, siftup (rest.set 0 last) 0)

/-- `heapify` restricted to the first `k` parent indices, processed in
decreasing order (helper for the induction). -/
def heapifyAux (heap : List QueueItem) : Nat → List QueueItem
  | 0 => heap
  | k + 1 => heapifyAux (siftup heap k) k

/-- `heapq.heapify`: `for i in reversed(range(n//2)): _siftup(x, i)`. -/
def heapify (heap : List QueueItem) : List QueueItem :=
  heapifyAux heap (heap.length / 2)

/-- `list.remove(v)` with Python tuple equality (`itemEq`); absent
values leave the list unchanged (that case is unreachable in `enqueue`). -/
def removeFirst : List QueueItem → QueueItem → List QueueItem
  | [], _ => []
  | x :: t, v => if itemEq x v then t else x :: removeFirst t v

/-- `max(self._items, key=lambda candidate: candidate[0])` on a nonempty
list: the first element of maximal `priority` in physical order. -/
def maxByPrio (l : List QueueItem) : QueueItem :=
  match l with
  | [] => dItem
  | x :: t => t.foldl (fun acc y => if y.priority > acc.priority then y else acc) x

/-! ### `QueueManager` (`queue_manager.py`) -/

/-- Mutable state of a `QueueManager`: the heap list and the
single-flight flag (`_is_processing`). -/
structure QMState where
  items : List QueueItem
  is_processing : Bool
  deriving DecidableEq, Repr

/-- Fresh `QueueManager` state. -/
def qmInit : QMState := ⟨[], false⟩

/-- `QueueManager.enqueue`: push, then on overflow scan for the first
highest-priority element, remove it by value and re-heapify. -/
def enqueue (max_size : Nat) (st : QMState) (item : QueueItem) :
    Option QueueItem × QMState :=
  let items1 := heappush st.items item
  if 0 < max_size ∧ max_size < items1.length then
    let evicted := maxByPrio items1
    (some evicted, { st with items := heapify (removeFirst items1 evicted) })
  else
    (none, { st with items := items1 })

/-- `QueueManager.dequeue`. -/
def dequeue (allow_concurrent : Bool) (st : QMState) :
    Option QueueItem × QMState :=
  if st.items.isEmpty then (none, st)
  else if st.is_processing ∧ ¬ allow_concurrent then (none, st)
  else
    match heappop st.items with
    | none => (none, st)
    | some (item, rest) =>
      (some item, { items := rest,
                    is_processing := if ¬ allow_concurrent then true else st.is_processing })

/-- `QueueManager.mark_idle`. -/
def markIdle (st : QMState) : QMState := { st with is_processing := false }

/-- `QueueManager.clear`. -/
def qmClear (_st : QMState) : QMState := ⟨[], false⟩

/-- States reachable through the public `QueueManager` operations of a
manager configured with `max_size` and `allow_concurrent`. -/
inductive Reachable (max_size : Nat) (allow_concurrent : Bool) : QMState → Prop
  | init : Reachable max_size allow_concurrent qmInit
  | enq {st} (item : QueueItem) : Reachable max_size allow_concurrent st →
      Reachable max_size allow_concurrent (enqueue max_size st item).2
  | deq {st} : Reachable max_size allow_concurrent st →
      Reachable max_size allow_concurrent (dequeue allow_concurrent st).2
  | idle {st} : Reachable max_size allow_concurrent st →
      Reachable max_size allow_concurrent (markIdle st)
  | clear {st} : Reachable max_size allow_concurrent st →
      Reachable max_size allow_concurrent (qmClear st)

/-! ### Binary-tree indexing and the heap invariant -/

/-- `Desc s q`: array index `q` lies in the subtree rooted at index `s`
(descendant-or-self under the `2i+1` / `2i+2` child indexing). -/
inductive Desc : Nat → Nat → Prop
  | refl (i : Nat) : Desc i i
  | left {s q : Nat} : Desc s q → Desc s (2 * q + 1)
  | right {s q : Nat} : Desc s q → Desc s (2 * q + 2)

theorem Desc.le {s q : Nat} (h : Desc s q) : s ≤ q := by
  induction h with
  | refl => exact Nat.le_refl _
  | left _ ih => omega
  | right _ ih => omega

theorem Desc.parent_of_ne {s q : Nat} (h : Desc s q) (hne : q ≠ s) :
    Desc s (parIdx q) := by
  cases h with
  | refl => exact absurd rfl hne
  | @left q h0 =>
    have heq : parIdx (2 * q + 1) = q := by unfold parIdx; omega
    rw [heq]; exact h0
  | @right q h0 =>
    have heq : parIdx (2 * q + 2) = q := by unfold parIdx; omega
    rw [heq]; exact h0

theorem Desc.zero (q : Nat) : Desc 0 q := by
  induction q using Nat.strong_induction_on with
  | _ q ih =>
    match q with
    | 0 => exact Desc.refl 0
    | Nat.succ m =>
      have hp : parIdx (m + 1) < m + 1 := by unfold parIdx; omega
      have hd := ih (parIdx (m + 1)) hp
      show Desc 0 (m + 1)
      rcases Nat.even_or_odd m with he | ho
      · have heq : m + 1 = 2 * parIdx (m + 1) + 1 := by
          unfold parIdx; obtain ⟨c, hc⟩ := he; omega
        rw [heq]; exact Desc.left hd
      · have heq : m + 1 = 2 * parIdx (m + 1) + 2 := by
          unfold parIdx; obtain ⟨c, hc⟩ := ho; omega
        rw [heq]; exact Desc.right hd

theorem Desc.child {s q c : Nat} (h : Desc s q) (hc : 0 < c) (hp : parIdx c = q) :
    Desc s c := by
  unfold parIdx at hp
  rcases Nat.even_or_odd c with he | ho
  · have : c = 2 * q + 2 := by obtain ⟨m, hm⟩ := he; omega
    rw [this]; exact Desc.right h
  · have : c = 2 * q + 1 := by obtain ⟨m, hm⟩ := ho; omega
    rw [this]; exact Desc.left h

theorem not_desc_of_lt {s q : Nat} (h : q < s) : ¬ Desc s q :=
  fun hd => absurd hd.le (by omega)

/-- The `heapq` invariant on the physical array: every non-root element
is not smaller than its parent. -/
def IsHeap (l : List QueueItem) : Prop :=
  ∀ i, 0 < i → i < l.length → ¬ itemLt (geta l i) (geta l (parIdx i))

theorem isHeap_nil : IsHeap [] := by
  intro i _ hi; simp at hi

theorem isHeap_singleton (x : QueueItem) : IsHeap [x] := by
  intro i h0 hi; simp at hi; omega

/-- In a heap, the root is a minimum: no element is `itemLt`-below it. -/
theorem isHeap_root_min {l : List QueueItem} (h : IsHeap l) :
    ∀ i, i < l.length → ¬ itemLt (geta l i) (geta l 0) := by
  intro i
  induction i using Nat.strong_induction_on with
  | _ i ih =>
    intro hi
    match i, hi with
    | 0, _ => exact itemLt_irrefl _
    | Nat.succ m, hi =>
      have hp : parIdx (m + 1) < m + 1 := by unfold parIdx; omega
      have h1 := h (m + 1) (Nat.succ_pos m) hi
      have h2 := ih (parIdx (m + 1)) hp (by omega)
      exact not_itemLt_trans h1 h2

theorem isHeap_root_min_mem {l : List QueueItem} (h : IsHeap l)
    {x : QueueItem} (hx : x ∈ l) : ¬ itemLt x (geta l 0) := by
  obtain ⟨i, hi, rfl⟩ := exists_geta_of_mem hx
  exact isHeap_root_min h i hi

/-! ### Correctness of `_siftdown` -/

theorem parIdx_lt {p : Nat} (h : 0 < p) : parIdx p < p := by
  unfold parIdx; omega

theorem siftdownFrom_length (a : List QueueItem) (s p : Nat) (v : QueueItem) :
    (siftdownFrom a s p v).length = a.length := by
  induction a, s, p, v using siftdownFrom.induct with
  | case1 a s p v h hlt ih =>
    rw [siftdownFrom]
    simp only [dif_pos h, if_pos hlt]
    rw [ih, List.length_set]
  | case2 a s p v h hlt =>
    rw [siftdownFrom]
    simp only [dif_pos h, if_neg hlt]
    exact List.length_set ..
  | case3 a s p v h =>
    rw [siftdownFrom]
    simp only [dif_neg h]
    exact List.length_set ..

/-- Swapping which of two distinct in-range positions receives `v` and
which receives the other position's old value is a permutation. -/
theorem set_set_perm (a : List QueueItem) (p pp : Nat) (v : QueueItem)
    (hp : p < a.length) (hpp : pp < a.length) (hne : p ≠ pp) :
    ((a.set p (geta a pp)).set pp v).Perm (a.set p v) := by
  have hlen : pp < (a.set p (geta a pp)).length := by rw [List.length_set]; exact hpp
  have hgb : geta (a.set p (geta a pp)) pp = geta a pp := geta_set_ne _ hne
  have h1 := perm_set v hlen
  rw [hgb] at h1
  have h2 : (geta a p :: a.set p (geta a pp)).Perm (geta a pp :: a) := perm_set _ hp
  have h3 : (geta a p :: a.set p v).Perm (v :: a) := perm_set v hp
  have chain : (geta a p :: geta a pp :: (a.set p (geta a pp)).set pp v).Perm
      (geta a p :: geta a pp :: a.set p v) :=
    ((((h1.cons (geta a p)).trans (List.Perm.swap v (geta a p) _)).trans
      (h2.cons v)).trans (List.Perm.swap (geta a pp) v a)).trans
      ((h3.symm.cons (geta a pp)).trans (List.Perm.swap (geta a p) (geta a pp) _))
  exact (chain.cons_inv).cons_inv

theorem siftdownFrom_perm (a : List QueueItem) (s p : Nat) (v : QueueItem) :
    p < a.length → (siftdownFrom a s p v).Perm (a.set p v) := by
  induction a, s, p, v using siftdownFrom.induct with
  | case1 a s p v h hlt ih =>
    intro hp
    rw [siftdownFrom]
    simp only [dif_pos h, if_pos hlt]
    have hplt : parIdx p < p := parIdx_lt (by omega)
    have hp2 : parIdx p < (a.set p (geta a (parIdx p))).length := by
      rw [List.length_set]; omega
    exact (ih hp2).trans (set_set_perm a p (parIdx p) v hp (by omega) (by omega))
  | case2 a s p v h hlt =>
    intro hp
    rw [siftdownFrom]
    simp only [dif_pos h, if_neg hlt]
    exact List.Perm.refl _
  | case3 a s p v h =>
    intro hp
    rw [siftdownFrom]
    simp only [dif_neg h]
    exact List.Perm.refl _

theorem siftdownFrom_frame (a : List QueueItem) (s p : Nat) (v : QueueItem) :
    Desc s p → ∀ q, ¬ Desc s q → geta (siftdownFrom a s p v) q = geta a q := by
  induction a, s, p, v using siftdownFrom.induct with
  | case1 a s p v h hlt ih =>
    intro hd q hq
    rw [siftdownFrom]
    simp only [dif_pos h, if_pos hlt]
    have hdp : Desc s (parIdx p) := hd.parent_of_ne (by omega)
    rw [ih hdp q hq]
    exact geta_set_ne _ (fun hpq => hq (hpq ▸ hd))
  | case2 a s p v h hlt =>
    intro hd q hq
    rw [siftdownFrom]
    simp only [dif_pos h, if_neg hlt]
    exact geta_set_ne _ (fun hpq => hq (hpq ▸ hd))
  | case3 a s p v h =>
    intro hd q hq
    rw [siftdownFrom]
    simp only [dif_neg h]
    exact geta_set_ne _ (fun hpq => hq (hpq ▸ hd))

/-- Main invariant argument for the `_siftdown` climb.  Hypotheses:
`v` is conceptually parked at `p`; all subtree edges not touching `p`
hold; children of `p` are not below `v`; children of `p` are not below
`p`'s parent.  Conclusion: all edges whose parent lies in the subtree
rooted at `s` hold in the result. -/
theorem siftdownFrom_heap (a : List QueueItem) (s p : Nat) (v : QueueItem) :
    p < a.length → Desc s p →
    (∀ i, 0 < i → i < a.length → Desc s (parIdx i) → parIdx i ≠ p → i ≠ p →
        ¬ itemLt (geta a i) (geta a (parIdx i))) →
    (∀ i, 0 < i → i < a.length → parIdx i = p → ¬ itemLt (geta a i) v) →
    (p ≠ s → ∀ i, 0 < i → i < a.length → parIdx i = p →
        ¬ itemLt (geta a i) (geta a (parIdx p))) →
    ∀ i, 0 < i → i < a.length → Desc s (parIdx i) →
        ¬ itemLt (geta (siftdownFrom a s p v) i)
                 (geta (siftdownFrom a s p v) (parIdx i)) := by
  induction a, s, p, v using siftdownFrom.induct with
  | case1 a s p v h hlt ih =>
    intro hp hd hI2 hI3 hI4
    rw [siftdownFrom]
    simp only [dif_pos h, if_pos hlt]
    have hplt : parIdx p < p := parIdx_lt (by omega)
    have hlen : (a.set p (geta a (parIdx p))).length = a.length := List.length_set ..
    have hd' : Desc s (parIdx p) := hd.parent_of_ne (by omega)
    have hI2' : ∀ i, 0 < i → i < (a.set p (geta a (parIdx p))).length →
        Desc s (parIdx i) → parIdx i ≠ parIdx p → i ≠ parIdx p →
        ¬ itemLt (geta (a.set p (geta a (parIdx p))) i)
                 (geta (a.set p (geta a (parIdx p))) (parIdx i)) := by
      intro i h0 hi hdp hne1 hne2
      rw [hlen] at hi
      by_cases hip : i = p
      · exact absurd (show parIdx i = parIdx p by rw [hip]) hne1
      · by_cases hpi : parIdx i = p
        · rw [geta_set_ne _ (fun hh => hip hh.symm), hpi, geta_set_self _ hp]
          exact hI4 (by omega) i h0 hi hpi
        · rw [geta_set_ne _ (fun hh => hip hh.symm),
            geta_set_ne _ (fun hh => hpi hh.symm)]
          exact hI2 i h0 hi hdp hpi hip
    have hI3' : ∀ i, 0 < i → i < (a.set p (geta a (parIdx p))).length →
        parIdx i = parIdx p →
        ¬ itemLt (geta (a.set p (geta a (parIdx p))) i) v := by
      intro i h0 hi hpar
      rw [hlen] at hi
      by_cases hip : i = p
      · rw [hip, geta_set_self _ hp]
        exact itemLt_asymm hlt
      · rw [geta_set_ne _ (fun hh => hip hh.symm)]
        have hpi_ne : parIdx i ≠ p := by rw [hpar]; omega
        have hedge := hI2 i h0 hi (hpar ▸ hd') hpi_ne hip
        rw [hpar] at hedge
        exact not_itemLt_of_itemLt_not_itemLt hedge hlt
    have hI4' : parIdx p ≠ s → ∀ i, 0 < i →
        i < (a.set p (geta a (parIdx p))).length → parIdx i = parIdx p →
        ¬ itemLt (geta (a.set p (geta a (parIdx p))) i)
                 (geta (a.set p (geta a (parIdx p))) (parIdx (parIdx p))) := by
      intro hpps i h0 hi hpar
      rw [hlen] at hi
      have hle : s ≤ parIdx p := hd'.le
      have hpp0 : 0 < parIdx p := by omega
      have hgp_lt : parIdx (parIdx p) < parIdx p := parIdx_lt hpp0
      have hgg : geta (a.set p (geta a (parIdx p))) (parIdx (parIdx p)) =
          geta a (parIdx (parIdx p)) := geta_set_ne _ (by omega)
      rw [hgg]
      have hdgp : Desc s (parIdx (parIdx p)) := hd'.parent_of_ne hpps
      have hedgepp : ¬ itemLt (geta a (parIdx p)) (geta a (parIdx (parIdx p))) :=
        hI2 (parIdx p) hpp0 (by omega) hdgp (by omega) (by omega)
      by_cases hip : i = p
      · rw [hip, geta_set_self _ hp]
        exact hedgepp
      · rw [geta_set_ne _ (fun hh => hip hh.symm)]
        have hpi_ne : parIdx i ≠ p := by rw [hpar]; omega
        have hedge := hI2 i h0 hi (hpar ▸ hd') hpi_ne hip
        rw [hpar] at hedge
        exact not_itemLt_trans hedge hedgepp
    intro i h0 hi hdp
    exact ih (by rw [hlen]; omega) hd' hI2' hI3' hI4' i h0 (by rw [hlen]; exact hi) hdp
  | case2 a s p v h hlt =>
    intro hp hd hI2 hI3 hI4 i h0 hi hdp
    rw [siftdownFrom]
    simp only [dif_pos h, if_neg hlt]
    have hplt : parIdx p < p := parIdx_lt (by omega)
    by_cases hip : i = p
    · rw [hip, geta_set_self _ hp, geta_set_ne _ (by omega : p ≠ parIdx p)]
      exact hlt
    · by_cases hpi : parIdx i = p
      · rw [geta_set_ne _ (fun hh => hip hh.symm), hpi, geta_set_self _ hp]
        exact hI3 i h0 hi hpi
      · rw [geta_set_ne _ (fun hh => hip hh.symm),
          geta_set_ne _ (fun hh => hpi hh.symm)]
        exact hI2 i h0 hi hdp hpi hip
  | case3 a s p v h =>
    intro hp hd hI2 hI3 hI4 i h0 hi hdp
    rw [siftdownFrom]
    simp only [dif_neg h]
    have hps : p = s := by have := hd.le; omega
    by_cases hip : i = p
    · exfalso
      have hlt2 : parIdx i < s := by
        have : parIdx i < i := parIdx_lt h0
        omega
      exact not_desc_of_lt hlt2 hdp
    · by_cases hpi : parIdx i = p
      · rw [geta_set_ne _ (fun hh => hip hh.symm), hpi, geta_set_self _ hp]
        exact hI3 i h0 hi hpi
      · rw [geta_set_ne _ (fun hh => hip hh.symm),
          geta_set_ne _ (fun hh => hpi hh.symm)]
        exact hI2 i h0 hi hdp hpi hip

/-! ### Correctness of the `_siftup` descent loop -/

theorem chooseChild_bounds (a : List QueueItem) (q : Nat) (h : 2 * q + 1 < a.length) :
    2 * q + 1 ≤ chooseChild a q ∧ chooseChild a q < a.length ∧
    parIdx (chooseChild a q) = q := by
  unfold parIdx
  by_cases hc : 2 * q + 2 < a.length ∧
      ¬ itemLt (geta a (2 * q + 1)) (geta a (2 * q + 2))
  · have h1 := hc.1
    rw [chooseChild, if_pos hc]
    omega
  · rw [chooseChild, if_neg hc]
    omega

/-- The selected child is not above either child. -/
theorem chooseChild_min (a : List QueueItem) (q : Nat) (_h : 2 * q + 1 < a.length) :
    ∀ i, 0 < i → i < a.length → parIdx i = q →
    ¬ itemLt (geta a i) (geta a (chooseChild a q)) := by
  intro i h0 hi hpi
  have hi_cases : i = 2 * q + 1 ∨ i = 2 * q + 2 := by unfold parIdx at hpi; omega
  by_cases hc : 2 * q + 2 < a.length ∧
      ¬ itemLt (geta a (2 * q + 1)) (geta a (2 * q + 2))
  · rw [chooseChild, if_pos hc]
    rcases hi_cases with hl | hr
    · rw [hl]; exact hc.2
    · rw [hr]; exact itemLt_irrefl _
  · rw [chooseChild, if_neg hc]
    rcases hi_cases with hl | hr
    · rw [hl]; exact itemLt_irrefl _
    · rw [hr]
      have hrlen : 2 * q + 2 < a.length := by rw [hr] at hi; exact hi
      have hltlr : itemLt (geta a (2 * q + 1)) (geta a (2 * q + 2)) := by
        by_contra hn
        exact hc ⟨hrlen, hn⟩
      exact itemLt_asymm hltlr

/-- Loop invariant for the `_siftup` descent: subtree edges away from
the cursor hold; when the cursor has left the start, its children are
not below it and its parent slot duplicates its value.  The loop ends on
a childless cursor with those edges intact, touching only the subtree,
and permutes the array once the saved item is written back. -/
theorem siftupLoop_spec (a : List QueueItem) (q : Nat) :
    ∀ s, q < a.length → Desc s q →
    (∀ i, 0 < i → i < a.length → Desc s (parIdx i) → parIdx i ≠ q →
        ¬ itemLt (geta a i) (geta a (parIdx i))) →
    (q ≠ s → ∀ i, 0 < i → i < a.length → parIdx i = q →
        ¬ itemLt (geta a i) (geta a q)) →
    (q ≠ s → geta a (parIdx q) = geta a q) →
    ((siftupLoop a q).2 < (siftupLoop a q).1.length ∧ Desc s (siftupLoop a q).2)
    ∧ (¬ 2 * (siftupLoop a q).2 + 1 < (siftupLoop a q).1.length)
    ∧ (∀ i, 0 < i → i < (siftupLoop a q).1.length → Desc s (parIdx i) →
        parIdx i ≠ (siftupLoop a q).2 →
        ¬ itemLt (geta (siftupLoop a q).1 i) (geta (siftupLoop a q).1 (parIdx i)))
    ∧ (∀ j, ¬ Desc s j → geta (siftupLoop a q).1 j = geta a j)
    ∧ ((siftupLoop a q).1.length = a.length)
    ∧ (∀ v, ((siftupLoop a q).1.set (siftupLoop a q).2 v).Perm (a.set q v)) := by
  induction a, q using siftupLoop.induct with
  | case1 a q h ih =>
    intro s hq hd hK1 hK2 hK3
    rw [siftupLoop]
    simp only [dif_pos h]
    obtain ⟨hc_lo, hc_len, hc_par⟩ := chooseChild_bounds a q h
    have hcq : q < chooseChild a q := by omega
    have hlen : (a.set q (geta a (chooseChild a q))).length = a.length :=
      List.length_set ..
    have hd' : Desc s (chooseChild a q) := hd.child (by omega) hc_par
    have hK1' : ∀ i, 0 < i → i < (a.set q (geta a (chooseChild a q))).length →
        Desc s (parIdx i) → parIdx i ≠ chooseChild a q →
        ¬ itemLt (geta (a.set q (geta a (chooseChild a q))) i)
                 (geta (a.set q (geta a (chooseChild a q))) (parIdx i)) := by
      intro i h0 hi hdp hne
      rw [hlen] at hi
      by_cases hpi : parIdx i = q
      · have hiq : i ≠ q := by have := parIdx_lt h0; omega
        rw [geta_set_ne _ (fun hh => hiq hh.symm), hpi, geta_set_self _ hq]
        exact chooseChild_min a q h i h0 hi hpi
      · by_cases hiq : i = q
        · have h0q : 0 < q := by rwa [hiq] at h0
          have hqs : q ≠ s := by
            intro hqs2
            refine not_desc_of_lt ?_ (hqs2 ▸ hdp)
            rw [hiq, hqs2] at h0
            have := parIdx_lt h0
            rw [hiq, hqs2]
            omega
          have hparq_ne : parIdx q ≠ q := by have := parIdx_lt h0q; omega
          rw [hiq, geta_set_self _ hq,
            geta_set_ne _ (fun hh => hparq_ne hh.symm)]
          rw [hK3 hqs]
          exact hK2 hqs (chooseChild a q) (by omega) hc_len hc_par
        · rw [geta_set_ne _ (fun hh => hiq hh.symm),
            geta_set_ne _ (fun hh => hpi hh.symm)]
          exact hK1 i h0 hi hdp hpi
    have hK2' : chooseChild a q ≠ s → ∀ i, 0 < i →
        i < (a.set q (geta a (chooseChild a q))).length →
        parIdx i = chooseChild a q →
        ¬ itemLt (geta (a.set q (geta a (chooseChild a q))) i)
                 (geta (a.set q (geta a (chooseChild a q))) (chooseChild a q)) := by
      intro _ i h0 hi hpi
      rw [hlen] at hi
      have hiq : i ≠ q := by have := parIdx_lt h0; omega
      rw [geta_set_ne _ (fun hh => hiq hh.symm),
        geta_set_ne _ (fun hh => (by omega : chooseChild a q ≠ q) hh.symm)]
      have hedge := hK1 i h0 hi (hpi ▸ hd') (by rw [hpi]; omega)
      rw [hpi] at hedge
      exact hedge
    have hK3' : chooseChild a q ≠ s →
        geta (a.set q (geta a (chooseChild a q))) (parIdx (chooseChild a q)) =
        geta (a.set q (geta a (chooseChild a q))) (chooseChild a q) := by
      intro _
      rw [hc_par, geta_set_self _ hq,
        geta_set_ne _ (by omega : q ≠ chooseChild a q)]
    obtain ⟨hO1, hO2, hO3, hO4, hO5, hO6⟩ :=
      ih s (by rw [hlen]; exact hc_len) hd' hK1' hK2' hK3'
    refine ⟨hO1, hO2, ?_, ?_, ?_, ?_⟩
    · intro i h0 hi hdp hne
      exact hO3 i h0 hi hdp hne
    · intro j hj
      rw [hO4 j hj]
      exact geta_set_ne _ (fun hh => hj (hh ▸ hd))
    · rw [hO5, hlen]
    · intro v
      exact (hO6 v).trans (set_set_perm a q (chooseChild a q) v hq hc_len (by omega))
  | case2 a q h =>
    intro s hq hd hK1 _ _
    rw [siftupLoop, dif_neg h]
    exact ⟨⟨hq, hd⟩, h, fun i h0 hi hdp hne => hK1 i h0 hi hdp hne,
      fun j _ => rfl, rfl, fun v => List.Perm.refl _⟩

/-- Correctness of `_siftup` at `pos = s`: given that all strictly
deeper edges of the subtree rooted at `s` hold, the result satisfies all
edges of that subtree, is unchanged outside it, and is a permutation. -/
theorem siftup_spec (a : List QueueItem) (s : Nat)
    (hs : s < a.length)
    (hpre : ∀ i, 0 < i → i < a.length → Desc s (parIdx i) → parIdx i ≠ s →
        ¬ itemLt (geta a i) (geta a (parIdx i))) :
    (∀ i, 0 < i → i < a.length → Desc s (parIdx i) →
        ¬ itemLt (geta (siftup a s) i) (geta (siftup a s) (parIdx i)))
    ∧ (∀ j, ¬ Desc s j → geta (siftup a s) j = geta a j)
    ∧ (siftup a s).length = a.length
    ∧ (siftup a s).Perm a := by
  obtain ⟨⟨hfp, hdfp⟩, hleaf, hK1e, hframe, hlen, hperm⟩ :=
    siftupLoop_spec a s s hs (Desc.refl s) hpre (fun hqs => absurd rfl hqs)
      (fun hqs => absurd rfl hqs)
  have hI3 : ∀ i, 0 < i → i < (siftupLoop a s).1.length →
      parIdx i = (siftupLoop a s).2 →
      ¬ itemLt (geta (siftupLoop a s).1 i) (geta a s) := by
    intro i h0 hi hpi
    exfalso
    unfold parIdx at hpi
    omega
  have hI4 : (siftupLoop a s).2 ≠ s → ∀ i, 0 < i →
      i < (siftupLoop a s).1.length → parIdx i = (siftupLoop a s).2 →
      ¬ itemLt (geta (siftupLoop a s).1 i)
               (geta (siftupLoop a s).1 (parIdx (siftupLoop a s).2)) := by
    intro _ i h0 hi hpi
    exfalso
    unfold parIdx at hpi
    omega
  have hHeap := siftdownFrom_heap (siftupLoop a s).1 s (siftupLoop a s).2
    (geta a s) hfp hdfp (fun i h0 hi hdp hne _ => hK1e i h0 hi hdp hne) hI3 hI4
  have hFr := siftdownFrom_frame (siftupLoop a s).1 s (siftupLoop a s).2
    (geta a s) hdfp
  have hLen := siftdownFrom_length (siftupLoop a s).1 s (siftupLoop a s).2
    (geta a s)
  have hPm := siftdownFrom_perm (siftupLoop a s).1 s (siftupLoop a s).2
    (geta a s) hfp
  refine ⟨?_, ?_, ?_, ?_⟩
  · intro i h0 hi hdp
    exact hHeap i h0 (by rw [hlen]; exact hi) hdp
  · intro j hj
    exact (hFr j hj).trans (hframe j hj)
  · rw [show (siftup a s) = siftdownFrom (siftupLoop a s).1 s (siftupLoop a s).2
      (geta a s) from rfl, hLen, hlen]
  · exact (hPm.trans (hperm (geta a s))).trans (perm_set (geta a s) hs).cons_inv

/-! ### `heappush`, `heappop`, `heapify` -/

theorem heappush_spec (a : List QueueItem) (it : QueueItem) (hh : IsHeap a) :
    IsHeap (heappush a it) ∧ (heappush a it).Perm (it :: a)
    ∧ (heappush a it).length = a.length + 1 := by
  have hlen : (a ++ [it]).length = a.length + 1 := by simp
  have hp : a.length < (a ++ [it]).length := by simp
  have hI2 : ∀ i, 0 < i → i < (a ++ [it]).length → Desc 0 (parIdx i) →
      parIdx i ≠ a.length → i ≠ a.length →
      ¬ itemLt (geta (a ++ [it]) i) (geta (a ++ [it]) (parIdx i)) := by
    intro i h0 hi _ _ hne
    have hia : i < a.length := by rw [hlen] at hi; omega
    have hpa : parIdx i < a.length := by have := parIdx_lt h0; omega
    rw [geta_append_left _ hia, geta_append_left _ hpa]
    exact hh i h0 hia
  have hI3 : ∀ i, 0 < i → i < (a ++ [it]).length → parIdx i = a.length →
      ¬ itemLt (geta (a ++ [it]) i) it := by
    intro i h0 hi hpi
    exfalso
    rw [hlen] at hi
    unfold parIdx at hpi
    omega
  have hI4 : a.length ≠ 0 → ∀ i, 0 < i → i < (a ++ [it]).length →
      parIdx i = a.length →
      ¬ itemLt (geta (a ++ [it]) i) (geta (a ++ [it]) (parIdx a.length)) := by
    intro _ i h0 hi hpi
    exfalso
    rw [hlen] at hi
    unfold parIdx at hpi
    omega
  have hHeap := siftdownFrom_heap (a ++ [it]) 0 a.length it hp (Desc.zero _)
    hI2 hI3 hI4
  have hL : (heappush a it).length = a.length + 1 := by
    rw [show heappush a it = siftdownFrom (a ++ [it]) 0 a.length it from rfl,
      siftdownFrom_length, hlen]
  refine ⟨?_, ?_, hL⟩
  · intro i h0 hi
    rw [hL] at hi
    exact hHeap i h0 (by rw [hlen]; exact hi) (Desc.zero _)
  · have hPm := siftdownFrom_perm (a ++ [it]) 0 a.length it hp
    have hps := perm_set it hp
    rw [geta_append_last] at hps
    exact (hPm.trans hps.cons_inv).trans (List.perm_append_singleton it a)

theorem heappop_spec (a : List QueueItem) (hh : IsHeap a) :
    ∀ x rest, heappop a = some (x, rest) →
    x = geta a 0 ∧ IsHeap rest ∧ (x :: rest).Perm a ∧ rest.length + 1 = a.length := by
  match a with
  | [] => intro x rest hcontra; simp [heappop] at hcontra
  | [y] =>
    intro x rest heq
    simp only [heappop, Option.some.injEq, Prod.mk.injEq] at heq
    obtain ⟨hx, hr⟩ := heq
    subst hx; subst hr
    exact ⟨rfl, isHeap_nil, List.Perm.refl _, rfl⟩
  | y :: z :: t =>
    intro x rest heq
    simp only [heappop, Option.some.injEq, Prod.mk.injEq] at heq
    obtain ⟨hx, hr⟩ := heq
    have hngt : 2 ≤ (y :: z :: t).length := by
      simp only [List.length_cons]; omega
    have hdl : (y :: z :: t).dropLast.length = (y :: z :: t).length - 1 :=
      List.length_dropLast _
    have hblen : (((y :: z :: t).dropLast).set 0
        (geta (y :: z :: t) ((y :: z :: t).length - 1))).length =
        (y :: z :: t).length - 1 := by rw [List.length_set, hdl]
    have hb0 : 0 < (((y :: z :: t).dropLast).set 0
        (geta (y :: z :: t) ((y :: z :: t).length - 1))).length := by
      rw [hblen]; simp only [List.length_cons]; omega
    have hpre : ∀ i, 0 < i →
        i < (((y :: z :: t).dropLast).set 0
          (geta (y :: z :: t) ((y :: z :: t).length - 1))).length →
        Desc 0 (parIdx i) → parIdx i ≠ 0 →
        ¬ itemLt
          (geta (((y :: z :: t).dropLast).set 0
            (geta (y :: z :: t) ((y :: z :: t).length - 1))) i)
          (geta (((y :: z :: t).dropLast).set 0
            (geta (y :: z :: t) ((y :: z :: t).length - 1))) (parIdx i)) := by
      intro i h0 hi _ hne
      rw [hblen] at hi
      have hplt : parIdx i < i := parIdx_lt h0
      rw [geta_set_ne _ (by omega : (0 : Nat) ≠ i),
        geta_set_ne _ (fun hh2 => hne hh2.symm),
        geta_dropLast (by omega), geta_dropLast (by omega)]
      exact hh i h0 (by omega)
    obtain ⟨hHeap, _, hLen2, hPerm⟩ := siftup_spec _ 0 hb0 hpre
    subst hx; subst hr
    refine ⟨rfl, ?_, ?_, ?_⟩
    · intro i h0 hi
      rw [hLen2] at hi
      exact hHeap i h0 hi (Desc.zero _)
    · have hc1 : (y :: siftup (((y :: z :: t).dropLast).set 0
          (geta (y :: z :: t) ((y :: z :: t).length - 1))) 0).Perm
          (y :: ((y :: z :: t).dropLast).set 0
            (geta (y :: z :: t) ((y :: z :: t).length - 1))) := hPerm.cons y
      have hg0 : geta ((y :: z :: t).dropLast) 0 = y := by
        rw [geta_dropLast (by simp)]
        rfl
      have hps := perm_set (geta (y :: z :: t) ((y :: z :: t).length - 1))
        (by rw [hdl]; simp only [List.length_cons]; omega :
          0 < ((y :: z :: t).dropLast).length)
      rw [hg0] at hps
      have hlast : (y :: z :: t).dropLast ++
          [geta (y :: z :: t) ((y :: z :: t).length - 1)] = y :: z :: t := by
        have hne2 : (y :: z :: t) ≠ [] := by simp
        have hgl : geta (y :: z :: t) ((y :: z :: t).length - 1) =
            (y :: z :: t).getLast hne2 := by
          rw [geta_eq_getElem (by simp), List.getLast_eq_getElem]
        rw [hgl]
        exact List.dropLast_append_getLast hne2
      refine (hc1.trans hps).trans
        ((List.perm_append_singleton _ _).symm.trans ?_)
      rw [hlast]
    · rw [hLen2, hblen]
      simp only [List.length_cons]
      omega

/-- `heapify` processed down from parent index `k`: if every edge whose
parent index is at least `k` already holds, the result is a heap. -/
theorem heapifyAux_spec : ∀ (k : Nat) (a : List QueueItem),
    2 * k ≤ a.length →
    (∀ i, 0 < i → i < a.length → k ≤ parIdx i →
        ¬ itemLt (geta a i) (geta a (parIdx i))) →
    IsHeap (heapifyAux a k) ∧ (heapifyAux a k).Perm a ∧
      (heapifyAux a k).length = a.length := by
  intro k
  induction k with
  | zero =>
    intro a _ hyp
    exact ⟨fun i h0 hi => hyp i h0 hi (Nat.zero_le _), List.Perm.refl _, rfl⟩
  | succ k ih =>
    intro a hk hyp
    have hk2 : k < a.length := by omega
    have hpre : ∀ i, 0 < i → i < a.length → Desc k (parIdx i) → parIdx i ≠ k →
        ¬ itemLt (geta a i) (geta a (parIdx i)) := by
      intro i h0 hi hdp hne
      exact hyp i h0 hi (by have := hdp.le; omega)
    obtain ⟨hHeap, hFrame, hLen, hPerm⟩ := siftup_spec a k hk2 hpre
    have hyp' : ∀ i, 0 < i → i < (siftup a k).length → k ≤ parIdx i →
        ¬ itemLt (geta (siftup a k) i) (geta (siftup a k) (parIdx i)) := by
      intro i h0 hi hge
      rw [hLen] at hi
      by_cases hdp : Desc k (parIdx i)
      · exact hHeap i h0 hi hdp
      · have hpk : parIdx i ≠ k := fun hc => hdp (hc ▸ Desc.refl k)
        have hdi : ¬ Desc k i := by
          intro hdi
          by_cases hik : i = k
          · have := parIdx_lt h0
            omega
          · exact hdp (hdi.parent_of_ne hik)
        rw [hFrame i hdi, hFrame (parIdx i) hdp]
        exact hyp i h0 hi (by omega)
    have hstep := ih (siftup a k) (by rw [hLen]; omega) hyp'
    refine ⟨hstep.1, hstep.2.1.trans hPerm, ?_⟩
    rw [show heapifyAux a (k + 1) = heapifyAux (siftup a k) k from rfl,
      hstep.2.2, hLen]

/-- `heapify` turns an arbitrary list into a heap, permuting it. -/
theorem heapify_spec (a : List QueueItem) :
    IsHeap (heapify a) ∧ (heapify a).Perm a ∧ (heapify a).length = a.length := by
  have hyp : ∀ i, 0 < i → i < a.length → a.length / 2 ≤ parIdx i →
      ¬ itemLt (geta a i) (geta a (parIdx i)) := by
    intro i h0 hi hge
    exfalso
    unfold parIdx at hge
    omega
  exact heapifyAux_spec (a.length / 2) a (by omega) hyp

/-! ### `list.remove` and the eviction scan -/

theorem itemEq_refl (x : QueueItem) : itemEq x x := ⟨rfl, rfl⟩

theorem removeFirst_perm_exists : ∀ (l : List QueueItem) (v : QueueItem),
    (∃ x ∈ l, itemEq x v) → ∃ w, itemEq w v ∧ (w :: removeFirst l v).Perm l := by
  intro l v
  induction l with
  | nil =>
    intro hex
    obtain ⟨x, hx, _⟩ := hex
    simp at hx
  | cons a t ih =>
    intro hex
    obtain ⟨x, hx, hxe⟩ := hex
    by_cases ha : itemEq a v
    · refine ⟨a, ha, ?_⟩
      simp only [removeFirst, if_pos ha]
      exact List.Perm.refl _
    · have hxt : x ∈ t := by
        rcases List.mem_cons.mp hx with hxa | hxt
        · exact absurd (hxa ▸ hxe) ha
        · exact hxt
      obtain ⟨w, hw, hp⟩ := ih ⟨x, hxt, hxe⟩
      refine ⟨w, hw, ?_⟩
      simp only [removeFirst, if_neg ha]
      exact (List.Perm.swap a w _).trans (hp.cons a)

theorem removeFirst_length (l : List QueueItem) (v : QueueItem)
    (h : ∃ x ∈ l, itemEq x v) :
    (removeFirst l v).length + 1 = l.length := by
  obtain ⟨w, _, hp⟩ := removeFirst_perm_exists l v h
  have hl := hp.length_eq
  simpa using hl

theorem removeFirst_perm_unique (l : List QueueItem) (v : QueueItem)
    (hvl : v ∈ l) (huniq : ∀ x ∈ l, itemEq x v → x = v) :
    (v :: removeFirst l v).Perm l := by
  obtain ⟨w, hw, hp⟩ := removeFirst_perm_exists l v ⟨v, hvl, itemEq_refl v⟩
  have hwl : w ∈ l := hp.subset (List.mem_cons_self w _)
  have hv : w = v := huniq w hwl hw
  subst hv
  exact hp

theorem foldl_maxPrio_mem : ∀ (t : List QueueItem) (acc : QueueItem),
    t.foldl (fun a y => if y.priority > a.priority then y else a) acc = acc ∨
    t.foldl (fun a y => if y.priority > a.priority then y else a) acc ∈ t := by
  intro t
  induction t with
  | nil => intro acc; exact Or.inl rfl
  | cons b t ih =>
    intro acc
    rcases ih (if b.priority > acc.priority then b else acc) with he | hm
    · rw [List.foldl_cons, he]
      by_cases hb : b.priority > acc.priority
      · rw [if_pos hb]; exact Or.inr (List.mem_cons_self b t)
      · rw [if_neg hb]; exact Or.inl rfl
    · exact Or.inr (List.mem_cons_of_mem b hm)

theorem foldl_maxPrio_ge : ∀ (t : List QueueItem) (acc : QueueItem),
    acc.priority ≤
      (t.foldl (fun a y => if y.priority > a.priority then y else a) acc).priority ∧
    ∀ x ∈ t, x.priority ≤
      (t.foldl (fun a y => if y.priority > a.priority then y else a) acc).priority := by
  intro t
  induction t with
  | nil => intro acc; exact ⟨Nat.le_refl _, fun x hx => absurd hx (List.not_mem_nil x)⟩
  | cons b t ih =>
    intro acc
    obtain ⟨h1, h2⟩ := ih (if b.priority > acc.priority then b else acc)
    have hacc : acc.priority ≤ (if b.priority > acc.priority then b else acc).priority := by
      by_cases hb : b.priority > acc.priority
      · rw [if_pos hb]; omega
      · rw [if_neg hb]
    have hb2 : b.priority ≤ (if b.priority > acc.priority then b else acc).priority := by
      by_cases hb : b.priority > acc.priority
      · rw [if_pos hb]
      · rw [if_neg hb]; omega
    refine ⟨Nat.le_trans hacc h1, ?_⟩
    intro x hx
    rcases List.mem_cons.mp hx with hxb | hxt
    · rw [hxb]; exact Nat.le_trans hb2 h1
    · exact h2 x hxt

theorem maxByPrio_mem {l : List QueueItem} (h : l ≠ []) : maxByPrio l ∈ l := by
  match l with
  | [] => exact absurd rfl h
  | x :: t =>
    rcases foldl_maxPrio_mem t x with he | hm
    · rw [show maxByPrio (x :: t) =
        t.foldl (fun a y => if y.priority > a.priority then y else a) x from rfl, he]
      exact List.mem_cons_self x t
    · exact List.mem_cons_of_mem x hm

theorem maxByPrio_ge {l : List QueueItem} :
    ∀ x ∈ l, x.priority ≤ (maxByPrio l).priority := by
  match l with
  | [] => exact fun x hx => absurd hx (List.not_mem_nil x)
  | y :: t =>
    intro x hx
    obtain ⟨h1, h2⟩ := foldl_maxPrio_ge t y
    rcases List.mem_cons.mp hx with hxy | hxt
    · rw [hxy]; exact h1
    · exact h2 x hxt

/-! ### Queue invariants over reachable states -/

theorem reachable_isHeap {m : Nat} {c : Bool} {st : QMState}
    (h : Reachable m c st) : IsHeap st.items := by
  induction h with
  | init => exact isHeap_nil
  | @enq st item _ ih =>
    by_cases hcond : 0 < m ∧ m < (heappush st.items item).length
    · have heq : (enqueue m st item).2.items =
          heapify (removeFirst (heappush st.items item)
            (maxByPrio (heappush st.items item))) := by
        simp [enqueue, hcond]
      rw [heq]
      exact (heapify_spec _).1
    · have heq : (enqueue m st item).2.items = heappush st.items item := by
        simp [enqueue, hcond]
      rw [heq]
      exact (heappush_spec _ _ ih).1
  | @deq st _ ih =>
    by_cases he : st.items.isEmpty
    · have heq : (dequeue c st).2 = st := by simp [dequeue, he]
      rw [heq]; exact ih
    · by_cases hproc : st.is_processing = true ∧ c = false
      · have heq : (dequeue c st).2 = st := by simp [dequeue, he, hproc]
        rw [heq]; exact ih
      · rcases hpp : heappop st.items with _ | ⟨x, rest⟩
        · have heq : (dequeue c st).2 = st := by simp [dequeue, he, hproc, hpp]
          rw [heq]; exact ih
        · have heq : (dequeue c st).2.items = rest := by
            simp [dequeue, he, hproc, hpp]
          rw [heq]
          exact (heappop_spec st.items ih x rest hpp).2.1
  | idle _ ih => exact ih
  | clear _ _ => exact isHeap_nil

theorem reachable_size {m : Nat} {c : Bool} {st : QMState}
    (hm : 0 < m) (h : Reachable m c st) : st.items.length ≤ m := by
  induction h with
  | init => exact Nat.zero_le _
  | @enq st item hr ih =>
    have hlen1 : (heappush st.items item).length = st.items.length + 1 :=
      (heappush_spec st.items item (reachable_isHeap hr)).2.2
    by_cases hcond : 0 < m ∧ m < (heappush st.items item).length
    · have heq : (enqueue m st item).2.items =
          heapify (removeFirst (heappush st.items item)
            (maxByPrio (heappush st.items item))) := by
        simp [enqueue, hcond]
      rw [heq]
      have hne : heappush st.items item ≠ [] := by
        intro hnil; rw [hnil] at hlen1; simp at hlen1
      have hex : ∃ x ∈ heappush st.items item,
          itemEq x (maxByPrio (heappush st.items item)) :=
        ⟨_, maxByPrio_mem hne, itemEq_refl _⟩
      have hrl := removeFirst_length _ _ hex
      rw [(heapify_spec _).2.2]
      omega
    · have heq : (enqueue m st item).2.items = heappush st.items item := by
        simp [enqueue, hcond]
      rw [heq, hlen1]
      omega
  | @deq st hr ih =>
    by_cases he : st.items.isEmpty
    · have heq : (dequeue c st).2 = st := by simp [dequeue, he]
      rw [heq]; exact ih
    · by_cases hproc : st.is_processing = true ∧ c = false
      · have heq : (dequeue c st).2 = st := by simp [dequeue, he, hproc]
        rw [heq]; exact ih
      · rcases hpp : heappop st.items with _ | ⟨x, rest⟩
        · have heq : (dequeue c st).2 = st := by simp [dequeue, he, hproc, hpp]
          rw [heq]; exact ih
        · have heq : (dequeue c st).2.items = rest := by
            simp [dequeue, he, hproc, hpp]
          rw [heq]
          have := (heappop_spec st.items (reachable_isHeap hr) x rest hpp).2.2.2
          omega
  | idle _ ih => exact ih
  | clear _ _ => exact Nat.zero_le _

/-! ### Python string primitives used by `judge.py` -/

/-- Python `str.lower()` (per-code-point lowering). -/
def pyLower (s : String) : String := String.mk (s.data.map Char.toLower)

/-- Python `str.upper()`. -/
def pyUpper (s : String) : String := String.mk (s.data.map Char.toUpper)

/-- Does `hay` start with `needle`? -/
def startsWithL : List Char → List Char → Bool
  | _, [] => true
  | [], _ :: _ => false
  | h :: hs, n :: ns => h == n && startsWithL hs ns

/-- Substring containment over character lists (Python `needle in
hay`; the empty needle is contained in everything). -/
def containsL (hay needle : List Char) : Bool :=
  startsWithL hay needle ||
    match hay with
    | [] => false
    | _ :: t => containsL t needle

/-- Python `needle in hay` on strings. -/
def pyIn (needle hay : String) : Bool := containsL hay.data needle.data

/-- Python `str.strip()`: drop whitespace from both ends. -/
def pyStrip (s : String) : String :=
  String.mk (((s.data.dropWhile Char.isWhitespace).reverse.dropWhile
    Char.isWhitespace).reverse)

/-! ### `judge.py` -/

/-- The configuration fields consumed by `judge.py` and
`main.handle_comment` (`config.py` `Config`). -/
structure Config where
  trigger_words : List String
  min_comment_length : Nat
  ignore_patterns : List String
  positive_keywords : List String
  enable_llm_judge : Bool
  llm_judge_cpu_threshold : Nat
  deriving Repr

/-- The comment fields consumed by the triage pipeline. -/
structure CommentData where
  comment : String
  isFirstTime : Bool
  deriving Repr

/-- `judge.detect_trigger`. -/
def detect_trigger (comment_text : String) (config : Config) : Bool :=
  config.trigger_words.any (fun trigger => pyIn (pyLower trigger) (pyLower comment_text))

/-- `judge.calculate_priority`. -/
def calculate_priority (comment_data : CommentData) (config : Config) : Nat × Bool :=
  if detect_trigger comment_data.comment config ∨ comment_data.isFirstTime then
    (0, detect_trigger comment_data.comment config)
  else
    (3, detect_trigger comment_data.comment config)

/-- `judge.stage_b_judge`.  `Except.error` models an uncaught Python
exception (the `normalized[0]` read on an empty string).  The `0.7`
threshold is `int(len(normalized) * 0.7)`; for the lengths `< 5` that
can reach it, the float product truncates exactly like `7 * n / 10` in
integer arithmetic. -/
def stage_b_judge (comment_text : String) (config : Config) :
    Except String (Option Bool × String) :=
  let normalized := pyStrip comment_text
  if normalized.data.length < config.min_comment_length then
    .ok (some false, "too_short")
  else if config.ignore_patterns.any
      (fun pat => pat != "" && pyIn pat normalized) then
    .ok (some false, "ignore_pattern")
  else if config.positive_keywords.any
      (fun kw => kw != "" && pyIn kw normalized) then
    .ok (some true, "positive_keyword")
  else if normalized.data.length < 5 then
    match normalized.data with
    | [] => .error "IndexError"
    | first_char :: _ =>
      if 7 * normalized.data.length / 10 ≤ normalized.data.count first_char then
        .ok (some false, "repetitive")
      else
        .ok (none, "need_llm_judge")
  else
    .ok (none, "need_llm_judge")

/-- `judge.stage_a_judge`: the remote call's outcome is passed in as an
`Except` (an `error` is what the `except` block catches). -/
def stage_a_judge (config : Config) (cpu_usage : Nat)
    (classify_result : Except String String) : Bool × String :=
  if ¬ config.enable_llm_judge then
    (false, "llm_disabled")
  else if config.llm_judge_cpu_threshold < cpu_usage then
    (false, "skip_high_cpu_load")
  else
    match classify_result with
    | .error exc => (false, "llm_error:" ++ exc)
    | .ok response_text => (pyIn "YES" (pyUpper response_text), "llm_judged")

/-- `judge.should_respond`: stage B, then stage A when stage B defers. -/
def should_respond (comment_data : CommentData) (config : Config)
    (cpu_usage : Nat) (classify_result : Except String String) :
    Except String (Bool × String) :=
  match stage_b_judge comment_data.comment config with
  | .error e => .error e
  | .ok (some primary_result, reason) => .ok (primary_result, reason)
  | .ok (none, _) => .ok (stage_a_judge config cpu_usage classify_result)

/-- Whether a run of `should_respond` reaches the remote
`aituberkit_client.classify` call: stage B deferred, the LLM judge is
enabled and the CPU gate passes. -/
def classify_called (comment_data : CommentData) (config : Config)
    (cpu_usage : Nat) : Bool :=
  match stage_b_judge comment_data.comment config with
  | .ok (none, _) =>
    config.enable_llm_judge && decide (cpu_usage ≤ config.llm_judge_cpu_threshold)
  | _ => false

/-! ### `main.handle_comment` -/

/-- Observable outcome of one `handle_comment` run. -/
structure HandleOutcome where
  priority : Nat
  ran_should_respond : Bool
  called_classify : Bool
  enqueued : Bool
  skip_reason : Option String
  raised : Option String
  queue : QMState
  evicted : Option QueueItem
  deriving Repr

/-- `main.handle_comment`: priority rule, optional triage, then
enqueue; `inserted_at` / `comment_id` are the timestamp and identifier
given to the created `QueueItem`. -/
def handle_comment (config : Config) (max_size : Nat) (qs : QMState)
    (comment_data : CommentData) (cpu_usage : Nat)
    (classify_result : Except String String)
    (inserted_at comment_id : Nat) : HandleOutcome :=
  let pr := calculate_priority comment_data config
  if pr.1 = 0 then
    let res := enqueue max_size qs ⟨pr.1, inserted_at, comment_id⟩
    { priority := pr.1, ran_should_respond := false, called_classify := false,
      enqueued := true, skip_reason := none, raised := none,
      queue := res.2, evicted := res.1 }
  else
    match should_respond comment_data config cpu_usage classify_result with
    | .error e =>
      { priority := pr.1, ran_should_respond := true, called_classify := false,
        enqueued := false, skip_reason := none, raised := some e,
        queue := qs, evicted := none }
    | .ok (decision, reason) =>
      if decision then
        let res := enqueue max_size qs ⟨pr.1, inserted_at, comment_id⟩
        { priority := pr.1, ran_should_respond := true,
          called_classify := classify_called comment_data config cpu_usage,
          enqueued := true, skip_reason := none, raised := none,
          queue := res.2, evicted := res.1 }
      else
        { priority := pr.1, ran_should_respond := true,
          called_classify := classify_called comment_data config cpu_usage,
          enqueued := false, skip_reason := some reason, raised := none,
          queue := qs, evicted := none }

/-! ### Helper facts for the claim theorems -/

theorem enqueue_is_processing (m : Nat) (st : QMState) (item : QueueItem) :
    (enqueue m st item).2.is_processing = st.is_processing := by
  by_cases hcond : 0 < m ∧ m < (heappush st.items item).length
  · simp [enqueue, hcond]
  · simp [enqueue, hcond]

theorem dequeue_of_processing {st : QMState} (h : st.is_processing = true) :
    dequeue false st = (none, st) := by
  unfold dequeue
  simp [h]

theorem dequeue_some_processing {st st2 : QMState} {e : QueueItem}
    (h : dequeue false st = (some e, st2)) : st2.is_processing = true := by
  unfold dequeue at h
  by_cases he : st.items.isEmpty
  · simp [he] at h
  · by_cases hp : st.is_processing = true
    · simp [he, hp] at h
    · rcases hpp : heappop st.items with _ | ⟨x, rest⟩
      · simp [he, hp, hpp] at h
      · simp [he, hp, hpp] at h
        rw [← h.2]

/-- Zero or more `enqueue` / `dequeue` steps: the only queue operations
the pipeline performs between a dequeue and the matching `mark_idle`
(`main.py` never calls `clear`, and `size` does not change state). -/
inductive PipelineOps (max_size : Nat) (allow_concurrent : Bool) :
    QMState → QMState → Prop
  | refl (st) : PipelineOps max_size allow_concurrent st st
  | enq {st st2} (item : QueueItem) :
      PipelineOps max_size allow_concurrent st st2 →
      PipelineOps max_size allow_concurrent st (enqueue max_size st2 item).2
  | deq {st st2} :
      PipelineOps max_size allow_concurrent st st2 →
      PipelineOps max_size allow_concurrent st (dequeue allow_concurrent st2).2

theorem pipelineOps_processing {m : Nat} {st st2 : QMState}
    (hops : PipelineOps m false st st2) (h : st.is_processing = true) :
    st2.is_processing = true := by
  induction hops with
  | refl => exact h
  | enq item _ ih => rw [enqueue_is_processing]; exact ih
  | deq _ ih => rw [dequeue_of_processing ih]; exact ih

/-! ### Claim theorems -/

/-- C8: `mark_idle` on a queue with no item in flight does not raise
and leaves the state identical to the not-processing state; it is
idempotent (two consecutive calls leave the same state as one) and
never touches the stored items. -/
theorem C8_markIdle_idempotent (st : QMState) :
    markIdle (markIdle st) = markIdle st
    ∧ (markIdle st).items = st.items
    ∧ (markIdle st).is_processing = false
    ∧ (st.is_processing = false → markIdle st = st) := by
  refine ⟨rfl, rfl, rfl, ?_⟩
  intro h
  cases st with
  | mk items proc =>
    simp only [markIdle] at *
    rw [h]

/-- Witness for C8 at the initial state. -/
theorem C8_witness :
    qmInit.is_processing = false
    ∧ markIdle qmInit = qmInit
    ∧ markIdle (markIdle qmInit) = markIdle qmInit :=
  ⟨rfl, (C8_markIdle_idempotent qmInit).2.2.2 rfl, (C8_markIdle_idempotent qmInit).1⟩

/-- C5: in single-flight mode, once a dequeue has returned an entry,
every later dequeue — after any interleaving of pipeline queue
operations that does not include `mark_idle` — returns `None`, even if
entries are present; and dequeue on an empty queue returns `None`. -/
theorem C5_single_flight (max_size : Nat) (st st1 st2 : QMState) (e : QueueItem)
    (hdeq : dequeue false st = (some e, st1))
    (hops : PipelineOps max_size false st1 st2) :
    (dequeue false st2).1 = none
    ∧ (∀ st3 : QMState, st3.items = [] → ∀ c : Bool, (dequeue c st3).1 = none) := by
  constructor
  · have hp2 : st2.is_processing = true :=
      pipelineOps_processing hops (dequeue_some_processing hdeq)
    rw [dequeue_of_processing hp2]
  · intro st3 h3 c
    unfold dequeue
    simp [h3]

/-- Witness for C5: a two-element queue dequeues once, an enqueue
happens in between, and the next dequeue still yields nothing. -/
theorem C5_witness :
    dequeue false ⟨[⟨3, 1, 1⟩, ⟨3, 2, 2⟩], false⟩ =
      (some ⟨3, 1, 1⟩, ⟨[⟨3, 2, 2⟩], true⟩)
    ∧ (dequeue false (enqueue 5 (⟨[⟨3, 2, 2⟩], true⟩ : QMState) ⟨0, 3, 3⟩).2).1 = none := by
  have hdeq : dequeue false ⟨[⟨3, 1, 1⟩, ⟨3, 2, 2⟩], false⟩ =
      (some ⟨3, 1, 1⟩, ⟨[⟨3, 2, 2⟩], true⟩) := by
    simp [dequeue, heappop, siftup, siftupLoop, siftdownFrom, chooseChild, geta,
      parIdx, itemLt]
  exact ⟨hdeq,
    (C5_single_flight 5 _ _ _ _ hdeq
      (PipelineOps.enq ⟨0, 3, 3⟩ (PipelineOps.refl _))).1⟩

/-- C3: a comment with a matched trigger word or the first-time flag
gets priority 0 and is enqueued directly: `should_respond` (stage B)
never runs and the remote classify call is never made. -/
theorem C3_tier0_bypass (config : Config) (max_size : Nat) (qs : QMState)
    (cd : CommentData) (cpu : Nat) (cr : Except String String)
    (inserted_at comment_id : Nat)
    (h : detect_trigger cd.comment config = true ∨ cd.isFirstTime = true) :
    (calculate_priority cd config).1 = 0
    ∧ (handle_comment config max_size qs cd cpu cr inserted_at comment_id).priority = 0
    ∧ (handle_comment config max_size qs cd cpu cr inserted_at
        comment_id).ran_should_respond = false
    ∧ (handle_comment config max_size qs cd cpu cr inserted_at
        comment_id).called_classify = false
    ∧ (handle_comment config max_size qs cd cpu cr inserted_at
        comment_id).enqueued = true
    ∧ (handle_comment config max_size qs cd cpu cr inserted_at
        comment_id).raised = none := by
  have hpr : (calculate_priority cd config).1 = 0 := by
    unfold calculate_priority
    rw [if_pos h]
  refine ⟨hpr, ?_, ?_, ?_, ?_, ?_⟩ <;>
    · unfold handle_comment
      rw [if_pos hpr]
      try (first | rfl | exact hpr)

/-- Witness for C3: a first-time commenter. -/
theorem C3_witness :
    (⟨"hello", true⟩ : CommentData).isFirstTime = true
    ∧ (handle_comment ⟨[], 2, [], [], true, 60⟩ 5 qmInit ⟨"hello", true⟩ 0
        (Except.ok "YES") 1 1).enqueued = true
    ∧ (handle_comment ⟨[], 2, [], [], true, 60⟩ 5 qmInit ⟨"hello", true⟩ 0
        (Except.ok "YES") 1 1).called_classify = false
    ∧ (handle_comment ⟨[], 2, [], [], true, 60⟩ 5 qmInit ⟨"hello", true⟩ 0
        (Except.ok "YES") 1 1).priority = 0 := by
  have hc := C3_tier0_bypass ⟨[], 2, [], [], true, 60⟩ 5 qmInit ⟨"hello", true⟩ 0
    (Except.ok "YES") 1 1 (Or.inr rfl)
  exact ⟨rfl, hc.2.2.2.2.1, hc.2.2.2.1, hc.2.1⟩

/-- C6: when the LLM judge is enabled and the load gate passes, a
failing remote classify call is converted to a rejection with reason
`llm_error:<detail>`; `should_respond` returns that pair normally (the
error does not escape), so the pipeline goes on. -/
theorem C6_llm_error (config : Config) (cd : CommentData) (cpu : Nat)
    (detail r : String)
    (henable : config.enable_llm_judge = true)
    (hcpu : cpu ≤ config.llm_judge_cpu_threshold)
    (hb : stage_b_judge cd.comment config = .ok (none, r)) :
    stage_a_judge config cpu (.error detail) = (false, "llm_error:" ++ detail)
    ∧ should_respond cd config cpu (.error detail) =
        .ok (false, "llm_error:" ++ detail) := by
  have hsa : stage_a_judge config cpu (.error detail) =
      (false, "llm_error:" ++ detail) := by
    unfold stage_a_judge
    rw [if_neg (by simp [henable]), if_neg (Nat.not_lt.mpr hcpu)]
  refine ⟨hsa, ?_⟩
  unfold should_respond
  rw [hb, hsa]

/-- Witness for C6 at a concrete configuration and comment. -/
theorem C6_witness :
    stage_b_judge "hello" ⟨[], 1, [], [], true, 60⟩ =
      .ok (none, "need_llm_judge")
    ∧ should_respond ⟨"hello", false⟩ ⟨[], 1, [], [], true, 60⟩ 10
        (.error "boom") = .ok (false, "llm_error:" ++ "boom") := by
  have hb : stage_b_judge "hello" ⟨[], 1, [], [], true, 60⟩ =
      .ok (none, "need_llm_judge") := rfl
  exact ⟨hb, (C6_llm_error ⟨[], 1, [], [], true, 60⟩ ⟨"hello", false⟩ 10 "boom"
    "need_llm_judge" rfl (by decide) hb).2⟩

/-- C9: with `min_comment_length ≥ 1`, `stage_b_judge` is total: the
empty trimmed text is rejected as `too_short` before the first-character
read, so no `IndexError` is possible. -/
theorem C9_stage_b_total (config : Config) (text : String)
    (hmin : 1 ≤ config.min_comment_length) :
    ∃ res, stage_b_judge text config = .ok res := by
  unfold stage_b_judge
  by_cases h1 : (pyStrip text).data.length < config.min_comment_length
  · rw [if_pos h1]
    exact ⟨_, rfl⟩
  · rw [if_neg h1]
    split
    · exact ⟨_, rfl⟩
    · split
      · exact ⟨_, rfl⟩
      · split
        · rcases hnd : (pyStrip text).data with _ | ⟨c, rest⟩
          · exfalso
            rw [hnd] at h1
            simp at h1
            omega
          · show ∃ res,
              (if 7 * (c :: rest).length / 10 ≤ List.count c (c :: rest) then
                (Except.ok (some false, "repetitive") :
                  Except String (Option Bool × String))
              else Except.ok (none, "need_llm_judge")) = Except.ok res
            split
            · exact ⟨_, rfl⟩
            · exact ⟨_, rfl⟩
        · exact ⟨_, rfl⟩

/-- Witness for C9. -/
theorem C9_witness :
    1 ≤ (⟨[], 2, [], [], true, 60⟩ : Config).min_comment_length
    ∧ ∃ res, stage_b_judge "w" ⟨[], 2, [], [], true, 60⟩ = .ok res :=
  ⟨by decide, C9_stage_b_total ⟨[], 2, [], [], true, 60⟩ "w" (by decide)⟩

/-- Evaluation of stage B once execution reaches step 4 with a short
nonempty trimmed text. -/
theorem stage_b_step4 (config : Config) (text : String) (c : Char)
    (rest : List Char)
    (hnd : (pyStrip text).data = c :: rest)
    (hlen : ¬ (pyStrip text).data.length < config.min_comment_length)
    (hig : ¬ (config.ignore_patterns.any
        (fun pat => pat != "" && pyIn pat (pyStrip text)) = true))
    (hpos : ¬ (config.positive_keywords.any
        (fun kw => kw != "" && pyIn kw (pyStrip text)) = true))
    (h5 : (pyStrip text).data.length < 5) :
    stage_b_judge text config =
      if 7 * (c :: rest).length / 10 ≤ List.count c (c :: rest) then
        .ok (some false, "repetitive")
      else .ok (none, "need_llm_judge") := by
  unfold stage_b_judge
  rw [if_neg hlen, if_neg hig, if_neg hpos, if_pos h5, hnd]

/-- Evaluation of stage B once execution reaches step 4 with a long
trimmed text: the repetitive check is skipped. -/
theorem stage_b_step4_large (config : Config) (text : String)
    (hlen : ¬ (pyStrip text).data.length < config.min_comment_length)
    (hig : ¬ (config.ignore_patterns.any
        (fun pat => pat != "" && pyIn pat (pyStrip text)) = true))
    (hpos : ¬ (config.positive_keywords.any
        (fun kw => kw != "" && pyIn kw (pyStrip text)) = true))
    (h5 : ¬ (pyStrip text).data.length < 5) :
    stage_b_judge text config = .ok (none, "need_llm_judge") := by
  unfold stage_b_judge
  rw [if_neg hlen, if_neg hig, if_neg hpos, if_neg h5]

/-- C7 counterexample: the text `"ab"` reaches step 4 (with
`min_comment_length = 2`, no patterns), is rejected as `repetitive`,
yet the first character's count (1) is strictly below 70 % of the
trimmed length (1.4): the code compares against the truncated
`int(len * 0.7) = 1`, not against 70 %. -/
theorem C7_counterexample :
    stage_b_judge "ab" ⟨[], 2, [], [], true, 60⟩ = .ok (some false, "repetitive")
    ∧ ¬ (pyStrip "ab").data.length <
        (⟨[], 2, [], [], true, 60⟩ : Config).min_comment_length
    ∧ ¬ ((⟨[], 2, [], [], true, 60⟩ : Config).ignore_patterns.any
        (fun pat => pat != "" && pyIn pat (pyStrip "ab")) = true)
    ∧ ¬ ((⟨[], 2, [], [], true, 60⟩ : Config).positive_keywords.any
        (fun kw => kw != "" && pyIn kw (pyStrip "ab")) = true)
    ∧ (pyStrip "ab").data.headD 'z' = 'a'
    ∧ (pyStrip "ab").data.length < 5
    ∧ ¬ (7 * (pyStrip "ab").data.length ≤ 10 * (pyStrip "ab").data.count 'a') :=
  ⟨rfl, by decide, by decide, by decide, rfl, by decide, by decide⟩

/-- C7 amended: for a text that reaches step 4, stage B returns
`repetitive` exactly when the trimmed length is below 5 and the count
of the first character is at least `int(len * 0.7)` — the float product
truncated to an integer (equal to `7 * len / 10` for these lengths) —
rather than at least 70 % of the length. -/
theorem C7_amended (config : Config) (text : String)
    (hmin : 1 ≤ config.min_comment_length)
    (hlen : ¬ (pyStrip text).data.length < config.min_comment_length)
    (hig : ¬ (config.ignore_patterns.any
        (fun pat => pat != "" && pyIn pat (pyStrip text)) = true))
    (hpos : ¬ (config.positive_keywords.any
        (fun kw => kw != "" && pyIn kw (pyStrip text)) = true)) :
    stage_b_judge text config = .ok (some false, "repetitive") ↔
      ((pyStrip text).data.length < 5 ∧
        7 * (pyStrip text).data.length / 10 ≤
          (pyStrip text).data.count ((pyStrip text).data.headD 'a')) := by
  rcases hnd : (pyStrip text).data with _ | ⟨c, rest⟩
  · exfalso
    rw [hnd] at hlen
    simp at hlen
    omega
  · by_cases h5 : (pyStrip text).data.length < 5
    · have hstep := stage_b_step4 config text c rest hnd hlen hig hpos h5
      by_cases hcnt : 7 * (c :: rest).length / 10 ≤ List.count c (c :: rest)
      · rw [hstep, if_pos hcnt]
        simp only [hnd, List.headD_cons]
        exact ⟨fun _ => ⟨by rw [← hnd]; exact h5, hcnt⟩, fun _ => trivial⟩
      · rw [hstep, if_neg hcnt]
        simp only [hnd, List.headD_cons]
        constructor
        · intro hcontra
          exact absurd hcontra (by simp)
        · intro hrhs
          exact absurd hrhs.2 hcnt
    · rw [stage_b_step4_large config text hlen hig hpos h5]
      constructor
      · intro hcontra
        exact absurd hcontra (by simp)
      · intro hrhs
        rw [← hnd] at hrhs
        exact absurd hrhs.1 h5

/-- Witness for C7's amended statement at the text `"aab"`. -/
theorem C7_witness :
    stage_b_judge "aab" ⟨[], 2, [], [], true, 60⟩ = .ok (some false, "repetitive") :=
  (C7_amended ⟨[], 2, [], [], true, 60⟩ "aab" (by decide) (by decide) (by decide)
    (by decide)).mpr (by decide)

/-- C2: with a positive bound, an enqueue on a reachable queue leaves
at most `maxSize` entries, and evicts exactly zero entries (size grows
by one) or exactly one entry (size unchanged), never more. -/
theorem C2_bounded_eviction (m : Nat) (c : Bool) (st : QMState) (item : QueueItem)
    (hm : 0 < m) (hr : Reachable m c st) :
    (enqueue m st item).2.items.length ≤ m
    ∧ ((enqueue m st item).1 = none →
        (enqueue m st item).2.items.length = st.items.length + 1)
    ∧ (∀ e, (enqueue m st item).1 = some e →
        (enqueue m st item).2.items.length = st.items.length) := by
  have hsize := reachable_size hm (Reachable.enq item hr)
  have hlen1 : (heappush st.items item).length = st.items.length + 1 :=
    (heappush_spec st.items item (reachable_isHeap hr)).2.2
  refine ⟨hsize, ?_, ?_⟩
  · intro hnone
    by_cases hcond : 0 < m ∧ m < (heappush st.items item).length
    · exfalso
      have hsome : (enqueue m st item).1 =
          some (maxByPrio (heappush st.items item)) := by simp [enqueue, hcond]
      rw [hnone] at hsome
      simp at hsome
    · have heq : (enqueue m st item).2.items = heappush st.items item := by
        simp [enqueue, hcond]
      rw [heq, hlen1]
  · intro e hsome
    by_cases hcond : 0 < m ∧ m < (heappush st.items item).length
    · have heq : (enqueue m st item).2.items =
          heapify (removeFirst (heappush st.items item)
            (maxByPrio (heappush st.items item))) := by simp [enqueue, hcond]
      have hne : heappush st.items item ≠ [] := by
        intro h0; rw [h0] at hlen1; simp at hlen1
      have hrl := removeFirst_length (heappush st.items item)
        (maxByPrio (heappush st.items item))
        ⟨_, maxByPrio_mem hne, itemEq_refl _⟩
      rw [heq, (heapify_spec _).2.2]
      omega
    · exfalso
      have hnone : (enqueue m st item).1 = none := by simp [enqueue, hcond]
      rw [hsome] at hnone
      simp at hnone

/-- Witness for C2 at the empty queue with bound 1. -/
theorem C2_witness :
    (0 : Nat) < 1 ∧ (enqueue 1 qmInit ⟨3, 1, 1⟩).2.items.length ≤ 1 :=
  ⟨Nat.one_pos,
    (C2_bounded_eviction 1 true qmInit ⟨3, 1, 1⟩ Nat.one_pos Reachable.init).1⟩

/-- C4: a successful dequeue on a reachable queue returns an entry that
is minimal under (priority ascending, insertion time ascending): every
stored entry has a strictly larger priority number, or the same
priority and an insertion time no smaller.  In particular equal
priorities dequeue in insertion order and tier 0 beats tier 3
regardless of arrival order. -/
theorem C4_dequeue_min (m : Nat) (c : Bool) (st st2 : QMState) (e : QueueItem)
    (hr : Reachable m c st) (hdeq : dequeue c st = (some e, st2)) :
    ∀ x ∈ st.items, e.priority < x.priority ∨
      (e.priority = x.priority ∧ e.inserted_at ≤ x.inserted_at) := by
  have hheap := reachable_isHeap hr
  unfold dequeue at hdeq
  by_cases he : st.items.isEmpty
  · simp [he] at hdeq
  · by_cases hp : st.is_processing = true ∧ c = false
    · simp [he, hp] at hdeq
    · rcases hpp : heappop st.items with _ | ⟨x0, rest⟩
      · simp [he, hp, hpp] at hdeq
      · simp only [he, hp, hpp, if_neg, if_false] at hdeq
        have hx0 : x0 = e := by
          by_cases hpb : st.is_processing = true ∧ c = false
          · exact absurd hpb hp
          · simp [hpb] at hdeq
            exact hdeq.1
        have hroot := (heappop_spec st.items hheap x0 rest hpp).1
        intro x hx
        have hmin := isHeap_root_min_mem hheap hx
        rw [← hroot, hx0] at hmin
        unfold itemLt at hmin
        omega

/-- Witness for C4: a tier-0 entry enqueued after a tier-3 entry still
dequeues first. -/
theorem C4_witness :
    (⟨3, 1, 1⟩ : QueueItem) ∈
      ((enqueue 5 (enqueue 5 qmInit ⟨3, 1, 1⟩).2 ⟨0, 2, 2⟩).2).items
    ∧ ((0 : Nat) < 3 ∨ ((0 : Nat) = 3 ∧ (2 : Nat) ≤ 1)) := by
  have hitems : ((enqueue 5 (enqueue 5 qmInit ⟨3, 1, 1⟩).2 ⟨0, 2, 2⟩).2).items =
      [⟨0, 2, 2⟩, ⟨3, 1, 1⟩] := by
    simp [enqueue, qmInit, heappush, siftdownFrom, geta, parIdx, itemLt]
  have hmem : (⟨3, 1, 1⟩ : QueueItem) ∈
      ((enqueue 5 (enqueue 5 qmInit ⟨3, 1, 1⟩).2 ⟨0, 2, 2⟩).2).items := by
    rw [hitems]; simp
  have hdeq : dequeue true ((enqueue 5 (enqueue 5 qmInit ⟨3, 1, 1⟩).2 ⟨0, 2, 2⟩).2) =
      (some ⟨0, 2, 2⟩, ⟨[⟨3, 1, 1⟩], false⟩) := by
    simp [dequeue, enqueue, qmInit, heappush, heappop, siftup, siftupLoop,
      siftdownFrom, chooseChild, geta, parIdx, itemLt]
  exact ⟨hmem, C4_dequeue_min 5 true _ _ ⟨0, 2, 2⟩
    (Reachable.enq _ (Reachable.enq _ Reachable.init)) hdeq ⟨3, 1, 1⟩ hmem⟩

/-- C10: when the queue is full and every resident has a strictly lower
priority number than the new item, the enqueue evicts the newly
inserted entry itself: it is returned as the evicted item and the
stored multiset is unchanged. -/
theorem C10_self_eviction (m : Nat) (c : Bool) (st : QMState) (item : QueueItem)
    (hm : 0 < m) (hr : Reachable m c st)
    (hlen : st.items.length = m)
    (hlow : ∀ x ∈ st.items, x.priority < item.priority) :
    (enqueue m st item).1 = some item
    ∧ ((enqueue m st item).2.items : Multiset QueueItem) =
        (st.items : Multiset QueueItem) := by
  obtain ⟨_, hperm, hlen1⟩ := heappush_spec st.items item (reachable_isHeap hr)
  have hover : m < (heappush st.items item).length := by omega
  have hcond : 0 < m ∧ m < (heappush st.items item).length := ⟨hm, hover⟩
  have hne : heappush st.items item ≠ [] := by
    intro h0; rw [h0] at hlen1; simp at hlen1
  have hmem_item : item ∈ heappush st.items item :=
    hperm.mem_iff.mpr (List.mem_cons_self item st.items)
  have hmax_eq : maxByPrio (heappush st.items item) = item := by
    have hmem2 : maxByPrio (heappush st.items item) ∈ item :: st.items :=
      hperm.subset (maxByPrio_mem hne)
    rcases List.mem_cons.mp hmem2 with heqi | hmemst
    · exact heqi
    · exfalso
      have h1 := hlow _ hmemst
      have h2 := maxByPrio_ge item hmem_item
      omega
  have huniq : ∀ x ∈ heappush st.items item, itemEq x item → x = item := by
    intro x hx hxe
    rcases List.mem_cons.mp (hperm.subset hx) with h | h
    · exact h
    · exfalso
      have := hlow x h
      unfold itemEq at hxe
      omega
  have hrf2 : (removeFirst (heappush st.items item) item).Perm st.items :=
    ((removeFirst_perm_unique (heappush st.items item) item hmem_item
      huniq).trans hperm).cons_inv
  constructor
  · simp [enqueue, hcond, hmax_eq]
  · have heq : (enqueue m st item).2.items =
        heapify (removeFirst (heappush st.items item)
          (maxByPrio (heappush st.items item))) := by simp [enqueue, hcond]
    rw [heq, hmax_eq]
    exact Multiset.coe_eq_coe.mpr ((heapify_spec _).2.1.trans hrf2)

/-- Witness for C10: a full one-slot queue holding a tier-0 entry
rejects the tier-3 newcomer itself. -/
theorem C10_witness :
    (enqueue 1 (enqueue 1 qmInit ⟨0, 1, 1⟩).2 ⟨3, 2, 2⟩).1 = some ⟨3, 2, 2⟩
    ∧ ((enqueue 1 (enqueue 1 qmInit ⟨0, 1, 1⟩).2 ⟨3, 2, 2⟩).2.items :
        Multiset QueueItem) =
      ((enqueue 1 qmInit ⟨0, 1, 1⟩).2.items : Multiset QueueItem) := by
  have hitems : (enqueue 1 qmInit ⟨0, 1, 1⟩).2.items = [⟨0, 1, 1⟩] := by
    simp [enqueue, qmInit, heappush, siftdownFrom, geta, parIdx, itemLt]
  refine C10_self_eviction 1 true _ ⟨3, 2, 2⟩ Nat.one_pos
    (Reachable.enq _ Reachable.init) ?_ ?_
  · rw [hitems]
    rfl
  · intro x hx
    rw [hitems] at hx
    simp at hx
    rw [hx]
    decide

/-- C1 amended: an overflowing enqueue with `maxSize > 0` removes and
returns exactly one entry, which has the numerically highest priority
among all entries present after the insertion; among several entries
sharing that highest priority it is the first one in the internal heap
array order — not necessarily the one with the oldest insertion time. -/
theorem C1_amended (m : Nat) (st : QMState) (item : QueueItem)
    (hm : 0 < m) (hover : m < (heappush st.items item).length) :
    (enqueue m st item).1 = some (maxByPrio (heappush st.items item))
    ∧ maxByPrio (heappush st.items item) ∈ heappush st.items item
    ∧ (∀ x ∈ heappush st.items item,
        x.priority ≤ (maxByPrio (heappush st.items item)).priority)
    ∧ (enqueue m st item).2.items.length + 1 = (heappush st.items item).length := by
  have hcond : 0 < m ∧ m < (heappush st.items item).length := ⟨hm, hover⟩
  have hne : heappush st.items item ≠ [] := by
    intro h0
    rw [h0] at hover
    simp at hover
  refine ⟨by simp [enqueue, hcond], maxByPrio_mem hne, maxByPrio_ge, ?_⟩
  have heq : (enqueue m st item).2.items =
      heapify (removeFirst (heappush st.items item)
        (maxByPrio (heappush st.items item))) := by simp [enqueue, hcond]
  rw [heq, (heapify_spec _).2.2,
    removeFirst_length _ _ ⟨_, maxByPrio_mem hne, itemEq_refl _⟩]

/-- Witness for C1's amended statement. -/
theorem C1_amended_witness :
    (0 : Nat) < 1
    ∧ 1 < (heappush [⟨0, 1, 7⟩] ⟨3, 2, 8⟩).length
    ∧ (enqueue 1 ⟨[⟨0, 1, 7⟩], false⟩ ⟨3, 2, 8⟩).1 =
        some (maxByPrio (heappush [⟨0, 1, 7⟩] ⟨3, 2, 8⟩)) := by
  have hov : 1 < (heappush [⟨0, 1, 7⟩] ⟨3, 2, 8⟩).length := by
    simp [heappush, siftdownFrom, geta, parIdx, itemLt]
  exact ⟨Nat.one_pos, hov,
    (C1_amended 1 ⟨[⟨0, 1, 7⟩], false⟩ ⟨3, 2, 8⟩ Nat.one_pos hov).1⟩

/-- A reachable queue state (bound 4, concurrent mode) in whose heap
array a newer priority-3 entry sits before an older one. -/
def c1State : QMState :=
  (enqueue 4 (dequeue true ((enqueue 4 ((enqueue 4 ((enqueue 4 ((enqueue 4 qmInit
    ⟨3, 1, 1⟩).2) ⟨3, 2, 2⟩).2) ⟨0, 3, 3⟩).2) ⟨0, 4, 4⟩).2)).2 ⟨3, 5, 5⟩).2

/-- C1 counterexample: on this reachable state, the overflowing enqueue
evicts the priority-3 entry inserted at time 2 even though a priority-3
entry inserted at time 1 — older — is present after the insertion, so
ties at the highest priority are not broken toward the oldest insertion
time. -/
theorem C1_counterexample :
    Reachable 4 true c1State
    ∧ (enqueue 4 c1State ⟨3, 6, 6⟩).1 = some ⟨3, 2, 2⟩
    ∧ (⟨3, 1, 1⟩ : QueueItem) ∈ heappush c1State.items ⟨3, 6, 6⟩
    ∧ (⟨3, 1, 1⟩ : QueueItem).priority = (⟨3, 2, 2⟩ : QueueItem).priority
    ∧ (⟨3, 1, 1⟩ : QueueItem).inserted_at < (⟨3, 2, 2⟩ : QueueItem).inserted_at := by
  refine ⟨?_, ?_, ?_, rfl, by decide⟩
  · exact Reachable.enq _ (Reachable.deq (Reachable.enq _ (Reachable.enq _
      (Reachable.enq _ (Reachable.enq _ Reachable.init)))))
  · simp [c1State, enqueue, dequeue, qmInit, heappush, heappop, heapify,
      heapifyAux, siftup, siftupLoop, siftdownFrom, chooseChild, geta, parIdx,
      itemLt, itemEq, maxByPrio, removeFirst]
  · simp [c1State, enqueue, dequeue, qmInit, heappush, heappop, heapify,
      heapifyAux, siftup, siftupLoop, siftdownFrom, chooseChild, geta, parIdx,
      itemLt, itemEq, maxByPrio, removeFirst]

end OCAK
